import Mathlib

/-!
Shallow embedding of the OCaml steganography + RSA program presented in
src/src/content/projects/Steganography.md, together with theorems settling
the specification's claims about it.

Modelling conventions:
* OCaml `Z` (arbitrary-precision, non-negative throughout this program) is `Nat`.
* The effectful random source (`Random.int`, `Random.int64`) is modelled as an
  explicit stream `s : Nat -> Nat` together with a position index `i : Nat`;
  each draw reads `s i` (reduced modulo the requested bound) and moves to `i+1`.
* Unbounded source-level retry loops (`prime_gen`, `e_gen`) are modelled with an
  explicit fuel parameter returning `Option`; `none` means the source loop has
  not returned within `fuel` attempts.
* Recursions whose measure is `n / 2` or `n / 256` are implemented with a fuel
  argument (`fuel := n` suffices, since halving reaches 0 within `n` steps for
  `n >= 1`) so that every definition reduces inside the kernel.
-/

/-- Fast modular exponentiation by repeated squaring, on fuel. Models OCaml
`Z.powm a b n` (for `n > 0` it returns `a ^ b mod n`; `powMod_eq` below proves
this). The fuel only needs to cover the number of halvings of `b`. -/
def powModAux : Nat → Nat → Nat → Nat → Nat
  | 0, _, _, n => 1 % n
  | fuel + 1, a, b, n =>
    if b = 0 then 1 % n
    else
      let h := powModAux fuel a (b / 2) n
      if b % 2 = 0 then h * h % n else h * h % n * a % n

/-- Models OCaml `Z.powm` / the local `mod_exp` of sources/rsa.caml. -/
def powMod (a b n : Nat) : Nat := powModAux (b + 1) a b n

theorem powModAux_eq (a n : Nat) :
    ∀ fuel b, b < fuel → powModAux fuel a b n = a ^ b % n := by
  intro fuel
  induction fuel with
  | zero => intro b hb; omega
  | succ f ih =>
    intro b hb
    by_cases hb0 : b = 0
    · subst hb0; simp [powModAux]
    · have hrec : b / 2 < f := by omega
      have hh := ih (b / 2) hrec
      simp only [powModAux, hb0, if_false]
      rw [hh]
      have hsplit : b = b / 2 + b / 2 + b % 2 := by omega
      by_cases he : b % 2 = 0
      · rw [if_pos he, ← Nat.mul_mod]
        conv_rhs => rw [hsplit, he, Nat.add_zero, pow_add]
      · rw [if_neg he, ← Nat.mul_mod, Nat.mod_mul_mod]
        have he1 : b % 2 = 1 := by omega
        conv_rhs => rw [hsplit, he1, pow_add, pow_add, pow_one]

theorem powMod_eq (a b n : Nat) : powMod a b n = a ^ b % n :=
  powModAux_eq a n (b + 1) b (Nat.lt_succ_self b)

/-- Number of binary digits, on fuel; `numbits n` below instantiates the fuel.
Models OCaml `Z.numbits` (0 for 0, otherwise `log2 n + 1`). -/
def numbitsAux : Nat → Nat → Nat
  | 0, _ => 0
  | fuel + 1, n => if n = 0 then 0 else numbitsAux fuel (n / 2) + 1

/-- Models OCaml `Z.numbits`. -/
def numbits (n : Nat) : Nat := numbitsAux n n

/-- Odd part extraction, on fuel; models the inner `get_factor_q` of
`miller_rabin_test`: divide by 2 until the number is odd. The source recursion
diverges on 0 (never reached for the arguments `n - 1`, `n >= 2`, it is called
with); the fuelled model returns 0 there. -/
def get_factor_q_aux : Nat → Nat → Nat
  | 0, num => num
  | fuel + 1, num => if num % 2 = 0 ∧ num ≠ 0 then get_factor_q_aux fuel (num / 2) else num

/-- The odd factor q of its argument, as in the source `get_factor_q`. -/
def get_factor_q (num : Nat) : Nat := get_factor_q_aux num num

/-- Largest value of OCaml `Int64.max_int`, used by the source as the bound for
`Random.int64` when drawing Miller-Rabin bases. -/
def int64max : Nat := 9223372036854775807

/-- The inner witness recursion of the source `miller_rabin_test` (the
doubly-primed helper): given base `a` and current exponent `expp`, pass if
`a ^ expp mod n = 1`; fail if `expp = n - 1`; if `a ^ expp mod n = n - 1`
double the exponent and continue; otherwise fail. `Z.abs` around `Z.powm` is
the identity here since `Z.powm` returns values in `[0, n)`. The source
recursion has no structural measure; fuel 2 is always sufficient for `n >= 1`
because after seeing `n - 1` the next value is `(n-1)^2 mod n = 1`, which
exits, so the double-exponent branch can be taken at most once. -/
def mrtFuel : Nat → Nat → Nat → Nat → Bool
  | 0, _, _, _ => false
  | fuel + 1, n, a, expp =>
    if powMod a expp n = 1 then true
    else if expp = n - 1 then false
    else if powMod a expp n % n = n - 1 then mrtFuel fuel n a (2 * expp)
    else false

/-- The outer round loop of the source `miller_rabin_test` (the singly-primed
helper): run `trails` rounds, each drawing a fresh random base
`a in [0, min n Int64.max_int)`; stop with `false` as soon as a round fails. -/
def miller_rabin_go (n q : Nat) (s : Nat → Nat) : Nat → Nat → Bool × Nat
  | 0, i => (true, i)
  | trails + 1, i =>
    let a := s i % min n int64max
    if mrtFuel 2 n a q then miller_rabin_go n q s trails (i + 1) else (false, i + 1)

/-- Models the source `miller_rabin_test ?(trails = 50) n` with the random
stream made explicit: returns the verdict and the next stream position. -/
def miller_rabin_test (trails n : Nat) (s : Nat → Nat) (i : Nat) : Bool × Nat :=
  if n = 2 then (true, i)
  else miller_rabin_go n (get_factor_q (n - 1)) s trails i

/-- The inner digit loop of the source `z_gen`: `len` decimal digits drawn from
the random stream, accumulated as `acc * 10 + digit`. -/
def z_genAux (s : Nat → Nat) : Nat → Nat → Nat → Nat × Nat
  | 0, acc, i => (acc, i)
  | len + 1, acc, i => z_genAux s len (acc * 10 + s i % 10) (i + 1)

/-- Models the source `z_gen len`: a random integer with `len` random decimal
digits (possibly with leading zero digits). -/
def z_gen (len : Nat) (s : Nat → Nat) (i : Nat) : Nat × Nat := z_genAux s len 0 i

/-- Models the source `coprime a b = (Z.gcd a b = Z.one)`. -/
def coprime (a b : Nat) : Bool := Nat.gcd a b == 1

/-- Models the source `prime_gen ?(trails = 50) len`: draw `z_gen len`
candidates until `miller_rabin_test` accepts one. The source loop is
unbounded; `fuel` bounds the number of candidate attempts in the model, with
`none` meaning the source has not returned within `fuel` attempts. -/
def prime_gen (trails len : Nat) (s : Nat → Nat) : Nat → Nat → Option (Nat × Nat)
  | 0, _ => none
  | fuel + 1, i =>
    let zi := z_gen len s i
    let mr := miller_rabin_test trails zi.1 s zi.2
    if mr.1 then some (zi.1, mr.2) else prime_gen trails len s fuel mr.2

/-- Models the source `e_gen rc phi`: draw `z_gen rc.e_len` candidates until
one is coprime to `phi`. Unbounded in the source; fuelled here. -/
def e_gen (e_len phi : Nat) (s : Nat → Nat) : Nat → Nat → Option (Nat × Nat)
  | 0, _ => none
  | fuel + 1, i =>
    let zi := z_gen e_len s i
    if coprime zi.1 phi then some (zi.1, zi.2) else e_gen e_len phi s fuel zi.2

/-- Models OCaml `Z.invert a n` (the source `mod_minv`): the unique inverse of
`a` in `[0, n)` when `gcd a n = 1`. `Z.invert` raises `Division_by_zero` when
no inverse exists; the model returns `none` there. The linear search returns
exactly the canonical representative because the inverse is unique mod `n`. -/
def mod_minv (a n : Nat) : Option Nat :=
  (List.range n).find? (fun d => a * d % n == 1 % n)

/-- Models the source `d_gen e phi = mod_minv e phi`. -/
def d_gen (e phi : Nat) : Option Nat := mod_minv e phi

/-- Models the source record `rsa_config = { p_len; q_len; e_len }`. -/
structure rsa_config where
  p_len : Nat
  q_len : Nat
  e_len : Nat
  deriving DecidableEq

/-- Models the source private-key record `{ n; p; q; e; d }`. -/
structure private_key where
  n : Nat
  p : Nat
  q : Nat
  e : Nat
  d : Nat
  deriving DecidableEq

/-- Models the source public-key record `{ n; e }`. -/
structure public_key where
  n : Nat
  e : Nat
  deriving DecidableEq

/-- Models the source `private_key_gen rc`: generate `p` and `q` with
`prime_gen` (50 trails, as the source call sites use the default), compute
`phi = (p-1)(q-1)`, pick `e` coprime to `phi` with `e_gen`, and set
`d = d_gen e phi`; the key modulus is `n = p * q`. The random stream and the
fuel for the unbounded source loops are explicit. -/
def private_key_gen (rc : rsa_config) (fuel : Nat) (s : Nat → Nat) (i : Nat) :
    Option private_key :=
  match prime_gen 50 rc.p_len s fuel i with
  | none => none
  | some pi =>
    match prime_gen 50 rc.q_len s fuel pi.2 with
    | none => none
    | some qi =>
      let phi := (pi.1 - 1) * (qi.1 - 1)
      match e_gen rc.e_len phi s fuel qi.2 with
      | none => none
      | some ei =>
        match d_gen ei.1 phi with
        | none => none
        | some d => some ⟨pi.1 * qi.1, pi.1, qi.1, ei.1, d⟩

/-- Models the source `public_key_gen pk = { n = pk.n; e = pk.e }`. -/
def public_key_gen (pk : private_key) : public_key := ⟨pk.n, pk.e⟩

/-- Models the source plaintext record `{ message; types }`. -/
structure plaintext where
  message : Nat
  types : String
  deriving DecidableEq

/-- Models the source ciphertext record `{ c; types }`. -/
structure ciphertext where
  c : Nat
  types : String
  deriving DecidableEq

/-- The inner fold of the source `plaintext_input_string`: big-endian base-256
accumulation `acc * 256 + byte` over the character codes. -/
def encode_chars : Nat → List Nat → Nat
  | acc, [] => acc
  | acc, h :: t => encode_chars (acc * 256 + h) t

/-- Models the source `plaintext_input_string`, with the string given as its
list of byte values (OCaml `Char.code`). -/
def plaintext_input_string (msg : List Nat) : plaintext :=
  ⟨encode_chars 0 msg, "String"⟩

/-- Models the source `plaintext_encrypt pt pk = { c = Z.powm pt.message pk.e
pk.n; types = pt.types }`. -/
def plaintext_encrypt (pt : plaintext) (pk : public_key) : ciphertext :=
  ⟨powMod pt.message pk.e pk.n, pt.types⟩

/-- Models the source `serialize_ciphertext c = Z.to_string c`. -/
def serialize_ciphertext (c : Nat) : String := toString c

/-- The block size `Z.numbits pk.n / 8 - 1` computed by the source
`encrypt_and_return_message`. In OCaml this is a possibly negative `int`; as
the subtraction is on `Nat` here, both `numbits n < 8` (OCaml value negative,
`String.sub` raises) and `numbits n < 16` (OCaml value 0, the source loop
makes no progress and never terminates) collapse to `blockSize n = 0`, which
the recursion below treats as an explicit bail-out branch. -/
def blockSize (n : Nat) : Nat := numbits n / 8 - 1

/-- The inner `encode_blocks` recursion of the source
`encrypt_and_return_message`, on fuel, collecting for each block the raw
ciphertext value `(plaintext_encrypt (plaintext_input_string block) pk).c`
(the source conses `serialize_ciphertext` of that value; serialization is
applied afterwards in `encrypt_and_return_message` below). `k = 0` is the
non-terminating/raising source case described at `blockSize`. -/
def encode_blocksAux (pk : public_key) : Nat → Nat → List Nat → List Nat → List Nat
  | 0, _, _, acc => acc.reverse
  | fuel + 1, k, msg, acc =>
    if msg.isEmpty then acc.reverse
    else if k = 0 then acc.reverse
    else
      let m := min k msg.length
      encode_blocksAux pk fuel k (msg.drop m)
        ((plaintext_encrypt (plaintext_input_string (msg.take m)) pk).c :: acc)

/-- The block-splitting encryption stage of the source
`encrypt_and_return_message`, acting on an already generated public key: split
the message into blocks of `blockSize pk.n` bytes and encrypt each block
independently, preserving order. -/
def encrypt_message (msg : List Nat) (pk : public_key) : List Nat :=
  encode_blocksAux pk (msg.length + 1) (blockSize pk.n) msg []

/-- Models the tail of the source `encrypt_and_return_message` (after key
generation, which is random and therefore passed in): serialize each block
ciphertext and join with spaces, as `String.concat " "` does. -/
def encrypt_and_return_message (msg : List Nat) (k : private_key) : String :=
  String.intercalate " " ((encrypt_message msg (public_key_gen k)).map serialize_ciphertext)

/-- Minimal big-endian base-256 digit list of a number, on fuel (most
significant byte first, no leading zero byte, `[]` for 0). -/
def toBytesAux : Nat → Nat → List Nat
  | 0, _ => []
  | fuel + 1, m => if m = 0 then [] else toBytesAux fuel (m / 256) ++ [m % 256]

/-- Modelled from the spec: the byte decoding used by `decryptMessage` to turn
a decrypted block integer back into bytes; the repository source contains no
decryption code (only the encoder is shown), so this is the inverse of the
big-endian encoding described in the data-model section. -/
def toBytes (m : Nat) : List Nat := toBytesAux m m

/-- Modelled from the spec: `decryptBlock(c, priv) computes c^d mod n`; the
repository source contains no decryption code. -/
def plaintext_decrypt (c : Nat) (k : private_key) : Nat := powMod c k.d k.n

/-- Modelled from the spec: `decryptMessage` decrypts each block, decodes each
back to bytes, and concatenates in order; the repository source contains no
decryption code. -/
def decrypt_message (cs : List Nat) (k : private_key) : List Nat :=
  (cs.map (fun c => toBytes (plaintext_decrypt c k))).flatten

/-- Plain chunking of a list into pieces of `k` elements (last piece possibly
shorter), on fuel; the reference shape the source `encode_blocks` recursion is
compared against. `k = 0` mirrors the `blockSize = 0` bail-out branch. -/
def chunksOfAux : Nat → Nat → List Nat → List (List Nat)
  | 0, _, _ => []
  | fuel + 1, k, msg =>
    if msg.isEmpty then []
    else if k = 0 then []
    else msg.take k :: chunksOfAux fuel k (msg.drop k)

/-- Chunking with the fuel instantiated. -/
def chunksOf (k : Nat) (msg : List Nat) : List (List Nat) :=
  chunksOfAux (msg.length + 1) k msg

/-- The big-endian base-256 value of a byte list, written as the spec states
it (each byte weighted by 256 to the number of bytes after it); used to state
that `encode_chars` is exactly this encoding. -/
def bigEndianVal : List Nat → Nat
  | [] => 0
  | b :: t => b * 256 ^ t.length + bigEndianVal t

/-- Models the source `overwrite_last_bit byte message_bit`: set the least
significant bit to the message bit. The source takes the bit as a character
`'1'`/`'0'` and raises on anything else; the model uses `Bool`, which the
bitstream producers only ever feed anyway. -/
def overwrite_last_bit (byte : Nat) (bit : Bool) : Nat :=
  if bit then byte ||| 1 else byte &&& 0xFE

/-- The byte loop of the source `insert_message`: write bit j of the message
into the least significant bit of byte j of the image buffer, for
`j < min (image size) (message length)`; all later bytes are unchanged, and
message bits beyond the image size are silently dropped (the loop runs over
the image only). -/
def embedBits : List Nat → List Bool → List Nat
  | [], _ => []
  | img, [] => img
  | b :: img, m :: ms => overwrite_last_bit b m :: embedBits img ms

/-- Modelled from the spec: `int_to_fixed_length_binary w L`, the `w`-bit
big-endian encoding of `L`; the source calls this helper but its definition is
not included in the repository. -/
def toFixedBits (w L : Nat) : List Bool :=
  (List.range w).map (fun i => L.testBit (w - 1 - i))

/-- The bit-level content of the source `insert_message`: build the full
message as the 30-bit header (the payload bit-length, per the spec's header
description; the source's free variable `message_length` is this quantity)
followed by the payload bits, then write it into the image buffer with the
`embedBits` loop. File I/O and PPM header parsing are outside the model. -/
def insert_messageBits (img : List Nat) (payload : List Bool) : List Nat :=
  embedBits img (toFixedBits 30 payload.length ++ payload)

/-- Error type of the spec's image-codec contract. -/
inductive StegoError where
  | PayloadTooLarge
  deriving DecidableEq

/-- Error type of the spec's RSA block-cipher contract. -/
inductive RsaError where
  | PlaintextTooLarge
  deriving DecidableEq

/-- Modelled from the spec for comparison with the code: `encode` requires
`30 + len(payloadBits) <= capacity(image)` and otherwise fails with
`PayloadTooLarge`; on success it embeds header plus payload. -/
def insert_message_spec (w h : Nat) (img : List Nat) (payload : List Bool) :
    Except StegoError (List Nat) :=
  if w * h * 3 < 30 + payload.length then .error .PayloadTooLarge
  else .ok (embedBits img (toFixedBits 30 payload.length ++ payload))

/-- Modelled from the spec for comparison with the code: `encryptBlock`
computes `m ^ e mod n` for `0 <= m < n` and fails with `PlaintextTooLarge`
outside that range. -/
def encryptBlockSpec (m : Nat) (pk : public_key) : Except RsaError Nat :=
  if m < pk.n then .ok (powMod m pk.e pk.n) else .error .PlaintextTooLarge

/-- The 2-adic valuation (the `s` of `n - 1 = 2^s * q` in the spec's
Miller-Rabin description), on fuel. -/
def twoValAux : Nat → Nat → Nat
  | 0, _ => 0
  | fuel + 1, m => if m % 2 = 0 ∧ m ≠ 0 then twoValAux fuel (m / 2) + 1 else 0

/-- The exponent s with `m = 2^s * (odd part)`. -/
def twoVal (m : Nat) : Nat := twoValAux m m

/-- Modelled from the spec for comparison with the code: one Miller-Rabin
round for base `a` as the spec states it — with `n - 1 = 2^s * q`, `q` odd,
the witness passes when `a^q mod n` is 1, or when `a^(2^i * q) mod n = n - 1`
for some `i <= s - 1` (squaring at most `s - 1` times after the initial
power). -/
def millerRabinRoundSpec (n a : Nat) : Bool :=
  let q := get_factor_q (n - 1)
  let s := twoVal (n - 1)
  (a ^ q % n == 1) || (List.range s).any (fun i => a ^ (2 ^ i * q) % n == n - 1)

/-- The totient `(p - 1) * (q - 1)` of a generated key, as the source
`private_key_gen` computes it. -/
def phiOf (k : private_key) : Nat := (k.p - 1) * (k.q - 1)

/-- The spec's KeyPair invariant (section 3 data model, with `p` and `q` two
distinct primes as in the key-generation description): `n = p * q`,
`gcd(e, phi) = 1` and `e * d = 1 (mod phi)`. -/
def ValidKeyPair (k : private_key) : Prop :=
  Nat.Prime k.p ∧ Nat.Prime k.q ∧ k.p ≠ k.q ∧ k.n = k.p * k.q ∧
    Nat.gcd k.e (phiOf k) = 1 ∧ k.e * k.d % phiOf k = 1 % phiOf k

instance (k : private_key) : Decidable (ValidKeyPair k) := by
  unfold ValidKeyPair; infer_instance

/-- The constant random stream that always yields 9: every `z_gen 2` candidate
is 99 and every Miller-Rabin base drawn for it is 9, so `prime_gen` never
returns on this stream. -/
def supply9 : Nat → Nat := fun _ => 9

/-- A random stream on which `private_key_gen ⟨1,1,1⟩` succeeds at once:
first digit 2 (so `p = 2`, accepted by the `n = 2` early branch), second digit
3 (so `q = 3`, whose 50 witness rounds all draw base 1 and pass), then all 1s
(witness bases for `q`, and the digit making `e = 1`). -/
def supplyW : Nat → Nat := fun i => if i = 0 then 2 else if i = 1 then 3 else 1

/-- A concrete valid key pair used as witness input: `p = 8191` and `q = 1031`
are primes, `n = p * q = 8444921` has 24 bits (so the block size is 2 bytes),
`phi = 8190 * 1030 = 8435700`, `e = 11` is coprime to `phi`, and
`d = 4601291` is the inverse of 11 modulo `phi`. -/
def K0 : private_key := ⟨8444921, 8191, 1031, 11, 4601291⟩

theorem validK0 : ValidKeyPair K0 := by
  refine ⟨?_, ?_, by decide, by decide, by decide, by decide⟩
  · show Nat.Prime 8191
    norm_num
  · show Nat.Prime 1031
    norm_num

theorem encode_chars_acc : ∀ (c : List Nat) (acc : Nat),
    encode_chars acc c = acc * 256 ^ c.length + bigEndianVal c := by
  intro c
  induction c with
  | nil => intro acc; simp [encode_chars, bigEndianVal]
  | cons h t ih =>
    intro acc
    show encode_chars (acc * 256 + h) t = _
    rw [ih]
    simp only [List.length_cons, bigEndianVal, pow_succ]
    ring

theorem bigEndianVal_lt : ∀ c : List Nat, (∀ b ∈ c, b < 256) →
    bigEndianVal c < 256 ^ c.length := by
  intro c
  induction c with
  | nil => intro _; simp [bigEndianVal]
  | cons h t ih =>
    intro hb
    have hh : h < 256 := hb h (List.mem_cons_self h t)
    have ht := ih (fun b hbt => hb b (List.mem_cons_of_mem h hbt))
    simp only [bigEndianVal, List.length_cons, pow_succ]
    have h1 : h * 256 ^ t.length ≤ 255 * 256 ^ t.length :=
      Nat.mul_le_mul_right _ (by omega)
    nlinarith [pow_pos (show 0 < 256 by norm_num) t.length]

theorem encode_chars_lt (c : List Nat) (hb : ∀ b ∈ c, b < 256) :
    encode_chars 0 c < 256 ^ c.length := by
  rw [encode_chars_acc]
  simpa using bigEndianVal_lt c hb

theorem encode_chars_pos (c : List Nat) (hne : c ≠ []) (hh : c.headD 0 ≠ 0) :
    1 ≤ encode_chars 0 c := by
  match c, hne with
  | h :: t, _ =>
    show 1 ≤ encode_chars (0 * 256 + h) t
    rw [encode_chars_acc]
    have : h ≠ 0 := hh
    have hp : 0 < 256 ^ t.length := pow_pos (by norm_num) _
    have : 1 * 1 ≤ (0 * 256 + h) * 256 ^ t.length :=
      Nat.mul_le_mul (by omega) hp
    omega

theorem numbitsAux_zero : ∀ fuel, numbitsAux fuel 0 = 0 := by
  intro fuel; cases fuel <;> simp [numbitsAux]

theorem numbitsAux_bounds : ∀ fuel n, n ≤ fuel → 1 ≤ n →
    2 ^ (numbitsAux fuel n - 1) ≤ n ∧ n < 2 ^ numbitsAux fuel n := by
  intro fuel
  induction fuel with
  | zero => intro n h1 h2; omega
  | succ f ih =>
    intro n hle hpos
    have hn0 : n ≠ 0 := by omega
    simp only [numbitsAux, hn0, if_false]
    by_cases h1 : n = 1
    · subst h1
      norm_num [numbitsAux_zero]
    · have hge2 : 2 ≤ n := by omega
      have hhalf1 : 1 ≤ n / 2 := by omega
      have hhalfle : n / 2 ≤ f := by omega
      obtain ⟨hlo, hhi⟩ := ih (n / 2) hhalfle hhalf1
      set v := numbitsAux f (n / 2) with hv
      have hv1 : 1 ≤ v := by
        by_contra hc
        have : v = 0 := by omega
        rw [this] at hhi
        omega
      constructor
      · have : 2 ^ (v + 1 - 1) = 2 * 2 ^ (v - 1) := by
          rw [Nat.add_sub_cancel]
          conv_lhs => rw [show v = v - 1 + 1 by omega]
          rw [pow_succ]
          ring
        rw [this]
        omega
      · have : 2 ^ (v + 1) = 2 * 2 ^ v := by rw [pow_succ]; ring
        omega

theorem numbits_lower (n : Nat) (h : 1 ≤ n) : 2 ^ (numbits n - 1) ≤ n :=
  (numbitsAux_bounds n n (le_refl n) h).1

theorem numbits_upper (n : Nat) : n < 2 ^ numbits n := by
  by_cases h : n = 0
  · subst h; simp [numbits, numbitsAux_zero]
  · exact (numbitsAux_bounds n n (le_refl n) (by omega)).2

theorem numbits_pos (n : Nat) (h : 16 ≤ numbits n) : 1 ≤ n := by
  by_contra hc
  have : n = 0 := by omega
  subst this
  simp [numbits, numbitsAux_zero] at h

theorem pow256_blockSize_le (n : Nat) (h : 16 ≤ numbits n) :
    256 ^ blockSize n ≤ n := by
  have hn1 : 1 ≤ n := numbits_pos n h
  have hk : 8 * blockSize n ≤ numbits n - 1 := by
    unfold blockSize
    have h8 : numbits n / 8 * 8 ≤ numbits n := Nat.div_mul_le_self (numbits n) 8
    have h2 : 2 ≤ numbits n / 8 := by
      have := Nat.div_le_div_right (c := 8) h
      norm_num at this
      omega
    omega
  calc 256 ^ blockSize n = 2 ^ (8 * blockSize n) := by
        rw [show (256 : Nat) = 2 ^ 8 by norm_num, ← pow_mul]
    _ ≤ 2 ^ (numbits n - 1) := Nat.pow_le_pow_right (by norm_num) hk
    _ ≤ n := numbits_lower n hn1

theorem blockSize_pos (n : Nat) (h : 16 ≤ numbits n) : 1 ≤ blockSize n := by
  unfold blockSize
  have h2 : 2 ≤ numbits n / 8 := by
    have := Nat.div_le_div_right (c := 8) h
    norm_num at this
    omega
  omega

theorem toBytesAux_zero : ∀ fuel, toBytesAux fuel 0 = [] := by
  intro fuel; cases fuel <;> simp [toBytesAux]

theorem toBytesAux_congr : ∀ f1 f2 m, m ≤ f1 → m ≤ f2 →
    toBytesAux f1 m = toBytesAux f2 m := by
  intro f1
  induction f1 with
  | zero =>
    intro f2 m h1 _
    have : m = 0 := by omega
    subst this
    rw [toBytesAux_zero, toBytesAux_zero]
  | succ g ih =>
    intro f2 m h1 h2
    by_cases hm : m = 0
    · subst hm; rw [toBytesAux_zero, toBytesAux_zero]
    · obtain ⟨g2, rfl⟩ : ∃ g2, f2 = g2 + 1 := ⟨f2 - 1, by omega⟩
      simp only [toBytesAux, hm, if_false]
      have hdiv : m / 256 ≤ g := by omega
      have hdiv2 : m / 256 ≤ g2 := by omega
      rw [ih g2 (m / 256) hdiv hdiv2]

theorem toBytes_step (v b : Nat) (hb : b < 256) (hpos : 0 < 256 * v + b) :
    toBytes (256 * v + b) = toBytes v ++ [b] := by
  unfold toBytes
  have hne : 256 * v + b ≠ 0 := by omega
  match hN : 256 * v + b, hpos with
  | N + 1, _ =>
    simp only [toBytesAux, Nat.succ_ne_zero, if_false]
    have hdiveq : (N + 1) / 256 = v := by omega
    have hmodeq : (N + 1) % 256 = b := by omega
    rw [hdiveq, hmodeq]
    have hvle : v ≤ N := by omega
    rw [toBytesAux_congr N v v hvle (le_refl v)]

theorem bigEndianVal_append : ∀ (t : List Nat) (b : Nat),
    bigEndianVal (t ++ [b]) = 256 * bigEndianVal t + b := by
  intro t
  induction t with
  | nil => intro b; simp [bigEndianVal]
  | cons h t ih =>
    intro b
    show h * 256 ^ (t ++ [b]).length + bigEndianVal (t ++ [b]) = _
    rw [ih]
    simp only [List.length_append, List.length_cons, List.length_nil, bigEndianVal, pow_succ,
      pow_add, pow_one]
    ring

theorem encode_chars_append (t : List Nat) (b : Nat) :
    encode_chars 0 (t ++ [b]) = 256 * encode_chars 0 t + b := by
  rw [encode_chars_acc, encode_chars_acc, bigEndianVal_append]
  simp

theorem toBytes_encode_chars : ∀ c : List Nat, c ≠ [] → c.headD 0 ≠ 0 →
    (∀ x ∈ c, x < 256) → toBytes (encode_chars 0 c) = c := by
  intro c
  induction c using List.reverseRecOn with
  | nil => intro h; simp at h
  | append_singleton t b ih =>
    intro _ hhead hbound
    have hb : b < 256 := hbound b (by simp)
    rw [encode_chars_append]
    by_cases ht : t = []
    · subst ht
      have hbne : b ≠ 0 := by simpa using hhead
      have h0 : encode_chars 0 ([] : List Nat) = 0 := rfl
      rw [h0, Nat.mul_zero, Nat.zero_add]
      have hstep := toBytes_step 0 b hb (by omega)
      norm_num at hstep
      rw [hstep]
      rfl
    · have hheadt : t.headD 0 ≠ 0 := by
        match t, ht with
        | x :: xs, _ => simpa using hhead
      have hpos : 1 ≤ encode_chars 0 t := encode_chars_pos t ht hheadt
      rw [toBytes_step (encode_chars 0 t) b hb (by omega),
        ih ht hheadt (fun x hx => hbound x (List.mem_append_left _ hx))]

theorem chunksOfAux_congr : ∀ f1 f2 k msg, msg.length < f1 → msg.length < f2 →
    chunksOfAux f1 k msg = chunksOfAux f2 k msg := by
  intro f1
  induction f1 with
  | zero => intro f2 k msg h1 _; omega
  | succ g ih =>
    intro f2 k msg h1 h2
    obtain ⟨g2, rfl⟩ : ∃ g2, f2 = g2 + 1 := ⟨f2 - 1, by omega⟩
    by_cases hm : msg.isEmpty
    · simp [chunksOfAux, hm]
    · by_cases hk : k = 0
      · simp [chunksOfAux, hm, hk]
      · simp only [chunksOfAux, hm, hk, if_false]
        have hlen : 1 ≤ msg.length := by
          cases msg with
          | nil => simp at hm
          | cons x xs => simp
        have hd : (msg.drop k).length < g := by
          rw [List.length_drop]
          omega
        have hd2 : (msg.drop k).length < g2 := by
          rw [List.length_drop]
          omega
        rw [ih g2 k (msg.drop k) hd hd2]

theorem chunksOf_cons (k : Nat) (msg : List Nat) (hm : msg ≠ []) (hk : k ≠ 0) :
    chunksOf k msg = msg.take k :: chunksOf k (msg.drop k) := by
  have hm' : ¬ msg.isEmpty := by simpa using hm
  have hlen : 1 ≤ msg.length := by
    cases msg with
    | nil => simp at hm
    | cons x xs => simp
  show chunksOfAux (msg.length + 1) k msg = _
  simp only [chunksOfAux, hm', hk, if_false, Bool.false_eq_true]
  congr 1
  exact chunksOfAux_congr msg.length ((msg.drop k).length + 1) k (msg.drop k)
    (by rw [List.length_drop]; omega) (by omega)

theorem chunksOf_flatten : ∀ (N : Nat) (msg : List Nat) (k : Nat), msg.length ≤ N → 1 ≤ k →
    (chunksOf k msg).flatten = msg := by
  intro N
  induction N with
  | zero =>
    intro msg k h1 _
    have : msg = [] := by
      cases msg with
      | nil => rfl
      | cons x xs => simp at h1
    subst this
    rfl
  | succ f ih =>
    intro msg k h1 hk
    by_cases hm : msg = []
    · subst hm; rfl
    · rw [chunksOf_cons k msg hm (by omega)]
      have hlen : 1 ≤ msg.length := by
        cases msg with
        | nil => simp at hm
        | cons x xs => simp
      rw [List.flatten_cons, ih (msg.drop k) k (by rw [List.length_drop]; omega) hk,
        List.take_append_drop]

theorem chunksOf_shape : ∀ (N : Nat) (msg : List Nat) (k : Nat), msg.length ≤ N → 1 ≤ k →
    ∀ c ∈ chunksOf k msg, c ≠ [] ∧ c.length ≤ k := by
  intro N
  induction N with
  | zero =>
    intro msg k h1 _
    have : msg = [] := by
      cases msg with
      | nil => rfl
      | cons x xs => simp at h1
    subst this
    intro c hc
    simp [chunksOf, chunksOfAux] at hc
  | succ f ih =>
    intro msg k h1 hk
    by_cases hm : msg = []
    · subst hm; intro c hc; simp [chunksOf, chunksOfAux] at hc
    · rw [chunksOf_cons k msg hm (by omega)]
      have hlen : 1 ≤ msg.length := by
        cases msg with
        | nil => simp at hm
        | cons x xs => simp
      intro c hc
      rcases List.mem_cons.mp hc with hc1 | hc2
      · subst hc1
        constructor
        · have : (msg.take k).length = min k msg.length := List.length_take k msg
          intro hnil
          rw [hnil] at this
          simp at this
          omega
        · rw [List.length_take]
          omega
      · exact ih (msg.drop k) k (by rw [List.length_drop]; omega) hk c hc2

theorem chunksOf_full_chunks : ∀ (N : Nat) (msg : List Nat) (k : Nat), msg.length ≤ N → 1 ≤ k →
    ∀ j, j + 1 < (chunksOf k msg).length → ((chunksOf k msg).getD j []).length = k := by
  intro N
  induction N with
  | zero =>
    intro msg k h1 _
    have : msg = [] := by
      cases msg with
      | nil => rfl
      | cons x xs => simp at h1
    subst this
    intro j hj
    simp [chunksOf, chunksOfAux] at hj
  | succ f ih =>
    intro msg k h1 hk
    by_cases hm : msg = []
    · subst hm; intro j hj; simp [chunksOf, chunksOfAux] at hj
    · rw [chunksOf_cons k msg hm (by omega)]
      have hlen : 1 ≤ msg.length := by
        cases msg with
        | nil => simp at hm
        | cons x xs => simp
      intro j hj
      cases j with
      | zero =>
        simp only [List.getD_cons_zero]
        have htail : chunksOf k (msg.drop k) ≠ [] := by
          simp only [List.length_cons] at hj
          intro hnil
          rw [hnil] at hj
          simp at hj
        have hdrop : msg.drop k ≠ [] := by
          intro hnil
          rw [hnil] at htail
          exact htail rfl
        have : k < msg.length := by
          by_contra hc
          exact hdrop (List.drop_eq_nil_of_le (by omega))
        rw [List.length_take]
        omega
      | succ j0 =>
        simp only [List.getD_cons_succ]
        simp only [List.length_cons] at hj
        exact ih (msg.drop k) k (by rw [List.length_drop]; omega) hk j0 (by omega)

theorem encode_blocksAux_eq (pk : public_key) :
    ∀ (N : Nat) (k : Nat) (msg acc : List Nat), msg.length < N → 1 ≤ k →
    encode_blocksAux pk N k msg acc =
      acc.reverse ++ (chunksOf k msg).map
        (fun c => (plaintext_encrypt (plaintext_input_string c) pk).c) := by
  intro N
  induction N with
  | zero => intro k msg acc h1 _; omega
  | succ f ih =>
    intro k msg acc h1 hk
    by_cases hm : msg = []
    · subst hm
      simp [encode_blocksAux, chunksOf, chunksOfAux]
    · have hm' : ¬ msg.isEmpty := by simpa using hm
      have hlen : 1 ≤ msg.length := by
        cases msg with
        | nil => simp at hm
        | cons x xs => simp
      have hk0 : k ≠ 0 := by omega
      simp only [encode_blocksAux, hm', hk0, if_false, Bool.false_eq_true]
      have htake : msg.take (min k msg.length) = msg.take k := by
        rcases le_or_lt k msg.length with h | h
        · rw [min_eq_left h]
        · rw [min_eq_right (by omega), List.take_length, List.take_of_length_le (by omega)]
      have hdrop : msg.drop (min k msg.length) = msg.drop k := by
        rcases le_or_lt k msg.length with h | h
        · rw [min_eq_left h]
        · rw [min_eq_right (by omega), List.drop_length, List.drop_eq_nil_of_le (by omega)]
      rw [htake, hdrop]
      have hdlen : (msg.drop k).length < f := by
        rw [List.length_drop]
        omega
      rw [ih k (msg.drop k) _ hdlen hk, chunksOf_cons k msg hm hk0]
      simp [List.reverse_cons]

theorem pow_totient_prime (p : Nat) (hp : Nat.Prime p) (t : Nat)
    (ht : t ≡ 1 [MOD p - 1]) (htpos : 1 ≤ t) (m : Nat) : m ^ t ≡ m [MOD p] := by
  have hdvd : (p - 1) ∣ t - 1 := (Nat.modEq_iff_dvd' htpos).mp ht.symm
  obtain ⟨k, hk⟩ := hdvd
  have htk : t = (p - 1) * k + 1 := by omega
  haveI : Fact (Nat.Prime p) := ⟨hp⟩
  have hz : (m : ZMod p) ^ t = (m : ZMod p) := by
    by_cases hm : (m : ZMod p) = 0
    · rw [hm, zero_pow (by omega : t ≠ 0)]
    · rw [htk, pow_add, pow_one, pow_mul, ZMod.pow_card_sub_one_eq_one hm, one_pow, one_mul]
  have : ((m ^ t : Nat) : ZMod p) = ((m : Nat) : ZMod p) := by
    push_cast
    exact hz
  exact (ZMod.natCast_eq_natCast_iff _ _ _).mp this

theorem rsa_correct (K : private_key) (hV : ValidKeyPair K) :
    ∀ m, m < K.n → powMod (powMod m K.e K.n) K.d K.n = m := by
  obtain ⟨hp, hq, hpq, hn, _, hed⟩ := hV
  intro m hm
  rw [powMod_eq, powMod_eq, ← Nat.pow_mod, ← pow_mul]
  have hedm : K.e * K.d ≡ 1 [MOD phiOf K] := hed
  have hp2 : 2 ≤ K.p := hp.two_le
  have hq2 : 2 ≤ K.q := hq.two_le
  have htpos : 1 ≤ K.e * K.d := by
    by_contra hc
    have h0 : K.e * K.d = 0 := by omega
    rw [h0] at hedm
    have hdvd : phiOf K ∣ 1 := (Nat.modEq_iff_dvd' (by omega)).mp hedm
    have hphi1 : (K.p - 1) * (K.q - 1) = 1 := Nat.eq_one_of_dvd_one hdvd
    have hp1 : K.p - 1 = 1 := Nat.eq_one_of_dvd_one ⟨K.q - 1, hphi1.symm⟩
    have hq1 : K.q - 1 = 1 := Nat.eq_one_of_dvd_one (Dvd.intro_left (K.p - 1) hphi1)
    exact hpq (by omega)
  have hmp : m ^ (K.e * K.d) ≡ m [MOD K.p] :=
    pow_totient_prime K.p hp (K.e * K.d)
      (hedm.of_dvd ⟨K.q - 1, rfl⟩) htpos m
  have hmq : m ^ (K.e * K.d) ≡ m [MOD K.q] :=
    pow_totient_prime K.q hq (K.e * K.d)
      (hedm.of_dvd (dvd_mul_left _ _)) htpos m
  have hco : Nat.Coprime K.p K.q := (Nat.coprime_primes hp hq).mpr hpq
  have hmn : m ^ (K.e * K.d) ≡ m [MOD K.p * K.q] :=
    (Nat.modEq_and_modEq_iff_modEq_mul hco).mp ⟨hmp, hmq⟩
  calc m ^ (K.e * K.d) % K.n = m % K.n := by rw [hn]; exact hmn
    _ = m := Nat.mod_eq_of_lt hm

theorem mod_minv_spec (a n d : Nat) (h : mod_minv a n = some d) :
    a * d % n = 1 % n := by
  have := List.find?_some h
  simpa using this

theorem e_gen_coprime (e_len phi : Nat) (s : Nat → Nat) :
    ∀ fuel i e j, e_gen e_len phi s fuel i = some (e, j) → Nat.gcd e phi = 1 := by
  intro fuel
  induction fuel with
  | zero => intro i e j h; simp [e_gen] at h
  | succ f ih =>
    intro i e j h
    simp only [e_gen] at h
    by_cases hc : coprime (z_gen e_len s i).1 phi
    · rw [if_pos hc] at h
      obtain ⟨he, _⟩ := Prod.mk.injEq .. ▸ (Option.some.injEq _ _ ▸ h)
      subst he
      simpa [coprime] using hc
    · rw [if_neg hc] at h
      exact ih _ e j h

set_option maxRecDepth 4000 in
theorem overwrite_facts : ∀ b, b < 256 → ∀ m : Bool,
    overwrite_last_bit b m % 2 = (if m then 1 else 0) ∧
    overwrite_last_bit b m ≤ b + 1 ∧ b ≤ overwrite_last_bit b m + 1 := by
  decide

theorem embedBits_length : ∀ (img : List Nat) (bits : List Bool),
    (embedBits img bits).length = img.length := by
  intro img
  induction img with
  | nil => intro bits; cases bits <;> rfl
  | cons b rest ih =>
    intro bits
    cases bits with
    | nil => rfl
    | cons m ms => simp [embedBits, ih ms]

theorem embedBits_getD_lt : ∀ (img : List Nat) (bits : List Bool) (i : Nat),
    i < bits.length → bits.length ≤ img.length →
    (embedBits img bits).getD i 0 = overwrite_last_bit (img.getD i 0) (bits.getD i false) := by
  intro img
  induction img with
  | nil =>
    intro bits i h1 h2
    simp only [List.length_nil, Nat.le_zero] at h2
    omega
  | cons b rest ih =>
    intro bits i h1 h2
    cases bits with
    | nil => simp at h1
    | cons m ms =>
      cases i with
      | zero => rfl
      | succ j =>
        simp only [embedBits, List.getD_cons_succ]
        exact ih ms j (by simpa using h1) (by simpa using h2)

theorem embedBits_getD_ge : ∀ (img : List Nat) (bits : List Bool) (i : Nat),
    bits.length ≤ i → (embedBits img bits).getD i 0 = img.getD i 0 := by
  intro img
  induction img with
  | nil => intro bits i _; cases bits <;> rfl
  | cons b rest ih =>
    intro bits i h1
    cases bits with
    | nil => rfl
    | cons m ms =>
      cases i with
      | zero => simp at h1
      | succ j =>
        simp only [embedBits, List.getD_cons_succ]
        exact ih ms j (by simpa using h1)

theorem embedBits_take : ∀ (img : List Nat) (bits : List Bool),
    embedBits img bits = embedBits img (bits.take img.length) := by
  intro img
  induction img with
  | nil => intro bits; cases bits <;> rfl
  | cons b rest ih =>
    intro bits
    cases bits with
    | nil => rfl
    | cons m ms =>
      simp only [List.length_cons, List.take_succ_cons, embedBits]
      rw [ih ms]

theorem getD_lt_of_mem_bound (l : List Nat) (i : Nat) (hi : i < l.length)
    (hb : ∀ x ∈ l, x < 256) : l.getD i 0 < 256 := by
  rw [List.getD_eq_getElem l 0 hi]
  exact hb _ (List.getElem_mem hi)

theorem get_factor_q_odd (m : Nat) (h : m % 2 = 1) : get_factor_q m = m := by
  cases m with
  | zero => omega
  | succ f =>
    show get_factor_q_aux (f + 1) (f + 1) = f + 1
    simp only [get_factor_q_aux]
    rw [if_neg]
    rintro ⟨h1, _⟩
    omega

theorem mrtFuel_base_top (n a : Nat) :
    (mrtFuel 2 n a (n - 1) = true) ↔ powMod a (n - 1) n = 1 := by
  by_cases h : powMod a (n - 1) n = 1 <;> simp [mrtFuel, h]

theorem mr_go_even_iff (n : Nat) (s : Nat → Nat) :
    ∀ (trails i : Nat), ((miller_rabin_go n (n - 1) s trails i).1 = true ↔
      ∀ k, k < trails → powMod (s (i + k) % min n int64max) (n - 1) n = 1) := by
  intro trails
  induction trails with
  | zero =>
    intro i
    simp [miller_rabin_go]
  | succ t ih =>
    intro i
    simp only [miller_rabin_go]
    by_cases hround : mrtFuel 2 n (s i % min n int64max) (n - 1) = true
    · rw [if_pos hround]
      rw [ih (i + 1)]
      constructor
      · intro hall k hk
        cases k with
        | zero =>
          rw [Nat.add_zero]
          exact (mrtFuel_base_top n _).mp hround
        | succ k0 =>
          have hidx : i + 1 + k0 = i + (k0 + 1) := by omega
          have := hall k0 (by omega)
          rwa [hidx] at this
      · intro hall k hk
        have hidx : i + 1 + k = i + (k + 1) := by omega
        rw [hidx]
        exact hall (k + 1) (by omega)
    · rw [if_neg hround]
      simp only [Bool.false_eq_true, false_iff]
      intro hall
      exact hround ((mrtFuel_base_top n _).mpr (by simpa using hall 0 (by omega)))

theorem miller_rabin_go_fail (n q : Nat) (s : Nat → Nat) (trails i : Nat)
    (h : mrtFuel 2 n (s i % min n int64max) q = false) :
    miller_rabin_go n q s (trails + 1) i = (false, i + 1) := by
  simp only [miller_rabin_go, h]
  simp

theorem z_gen2_supply9 (i : Nat) : z_gen 2 supply9 i = (99, i + 2) := by
  show z_genAux supply9 2 0 i = (99, i + 2)
  simp only [z_genAux]
  norm_num [supply9]

theorem mr99 (j : Nat) : miller_rabin_test 50 99 supply9 j = (false, j + 1) := by
  unfold miller_rabin_test
  rw [if_neg (by decide)]
  rw [show get_factor_q (99 - 1) = 49 from by decide,
    show (50 : Nat) = 49 + 1 from by norm_num]
  apply miller_rabin_go_fail
  rw [show supply9 j % min 99 int64max = 9 % 99 from by
    rw [supply9, Nat.min_eq_left (by norm_num [int64max])]]
  decide

theorem prime_gen_supply9_none : ∀ fuel i, prime_gen 50 2 supply9 fuel i = none := by
  intro fuel
  induction fuel with
  | zero => intro i; rfl
  | succ f ih =>
    intro i
    simp only [prime_gen]
    rw [z_gen2_supply9 i]
    dsimp only
    rw [mr99 (i + 2)]
    dsimp only
    exact ih (i + 3)

/-- C10: the plaintext-block encoding of `plaintext_input_string` is the
big-endian base-256 value of the byte string, and it is not injective: for
every byte string s, prepending a zero byte yields the same encoded integer,
hence the same ciphertext under `plaintext_encrypt`, although the two blocks
are distinct byte strings. -/
theorem claim_C10 (s : List Nat) (pk : public_key) :
    (plaintext_input_string s).message = bigEndianVal s ∧
    (plaintext_input_string (0 :: s)).message = (plaintext_input_string s).message ∧
    (0 :: s) ≠ s ∧
    plaintext_encrypt (plaintext_input_string (0 :: s)) pk =
      plaintext_encrypt (plaintext_input_string s) pk := by
  have h3 : plaintext_input_string (0 :: s) = plaintext_input_string s := by
    unfold plaintext_input_string
    congr 1
  refine ⟨?_, congrArg plaintext.message h3, ?_, by rw [h3]⟩
  · show encode_chars 0 s = bigEndianVal s
    rw [encode_chars_acc]
    simp
  · intro h
    have := congrArg List.length h
    simp at this

/-- C4, counterexample: the claim says `encryptBlock` fails with
`PlaintextTooLarge` for `m` outside `[0, n)`; the source `plaintext_encrypt`
performs no range check and always returns an ordinary ciphertext, so it does
not refine the spec-side contract `encryptBlockSpec`: at `m = n = 33667` the
spec demands the error while the code returns the ciphertext `n^e mod n = 0`. -/
theorem claim_C4_counterexample :
    ¬ (∀ (m : Nat) (pk : public_key) (ty : String),
        Except.ok (plaintext_encrypt ⟨m, ty⟩ pk).c = encryptBlockSpec m pk) := by
  intro h
  have h2 := h 33667 ⟨33667, 3⟩ "String"
  rw [show encryptBlockSpec 33667 ⟨33667, 3⟩ = Except.error RsaError.PlaintextTooLarge from by
    unfold encryptBlockSpec
    rw [if_neg (by decide)]] at h2
  exact Except.noConfusion h2

/-- C4, amended: `plaintext_encrypt` computes `m ^ e mod n` for every
non-negative `m`, in range or not, and preserves the `types` tag; there is no
range check and no `PlaintextTooLarge` failure path in the code (the claim's
first half is as stated, its failure half does not exist). The hypothesis
`0 < n` records that OCaml `Z.powm` raises on a zero modulus. -/
theorem claim_C4 (m : Nat) (pk : public_key) (ty : String) (_hn : 0 < pk.n) :
    (plaintext_encrypt ⟨m, ty⟩ pk).c = m ^ pk.e % pk.n ∧
    (plaintext_encrypt ⟨m, ty⟩ pk).types = ty :=
  ⟨powMod_eq m pk.e pk.n, rfl⟩

/-- C4, witness for the amended theorem at `m = 5`, `pk = (33667, 3)`. -/
theorem claim_C4_witness :
    0 < (33667 : Nat) ∧
    ((plaintext_encrypt ⟨5, "String"⟩ ⟨33667, 3⟩).c = 5 ^ 3 % 33667 ∧
      (plaintext_encrypt ⟨5, "String"⟩ ⟨33667, 3⟩).types = "String") :=
  ⟨by decide, claim_C4 5 ⟨33667, 3⟩ "String" (by decide)⟩

/-- C2: the code's Miller-Rabin round never performs the squaring search the
claim (and the spec, and the algorithm the code's own comment names)
describes: a round passes only when `a ^ q mod n` is 1 or `n - 1`. For the
prime `n = 17` (so `q = 1`, `s = 4`) and base `a = 3`, the spec-side round
`millerRabinRoundSpec` passes (squaring reaches `3^8 = 16 = n - 1` at
`i = 3 <= s - 1`), but the code declares 17 composite in one round. -/
theorem claim_C2 :
    miller_rabin_test 1 17 (fun _ => 3) 0 = (false, 1) ∧
    millerRabinRoundSpec 17 3 = true :=
  ⟨by decide, by decide⟩

/-- C8, counterexample: the claim says every even `n > 2` is declared
composite immediately, with no randomized round run (so the verdict is
`false` and the stream position is unchanged). The code has no even check:
for `n = 4` it runs a round with `q = n - 1 = 3`, consumes a random draw, and
with base 1 the round passes, so the test returns `(true, 1)`, not
`(false, 0)`. -/
theorem claim_C8_counterexample :
    ¬ (∀ (n : Nat), 2 < n → n % 2 = 0 → ∀ (trails : Nat) (s : Nat → Nat) (i : Nat),
        miller_rabin_test trails n s i = (false, i)) := by
  intro h
  have h2 := h 4 (by norm_num) (by norm_num) 1 (fun _ => 1) 0
  rw [show miller_rabin_test 1 4 (fun _ => 1) 0 = (true, 1) from by decide] at h2
  exact absurd h2 (by decide)

/-- C8, amended: `n = 2` is accepted (for any stream, consuming no
randomness), as claimed; but an even `n > 2` is not immediately composite:
since `n - 1` is odd the decomposition gives `q = n - 1`, the randomized
rounds do run (consuming one draw per round), and the test accepts exactly
when every drawn base `a` satisfies `a ^ (n-1) mod n = 1` — which does happen
(e.g. base 1), so an even composite can be declared prime. -/
theorem claim_C8 :
    (∀ (s : Nat → Nat) (i : Nat), miller_rabin_test 50 2 s i = (true, i)) ∧
    (∀ (n : Nat), 2 < n → n % 2 = 0 → ∀ (trails : Nat) (s : Nat → Nat) (i : Nat),
      ((miller_rabin_test trails n s i).1 = true ↔
        ∀ k, k < trails → powMod (s (i + k) % min n int64max) (n - 1) n = 1)) := by
  constructor
  · intro s i
    unfold miller_rabin_test
    rw [if_pos rfl]
  · intro n hn2 heven trails s i
    unfold miller_rabin_test
    rw [if_neg (by omega), get_factor_q_odd (n - 1) (by omega)]
    exact mr_go_even_iff n s trails i

/-- C8, witness for the amended theorem at `n = 4`, one round, constant
stream 1: the even-case characterization applies and yields `true`. -/
theorem claim_C8_witness : (miller_rabin_test 1 4 (fun _ => 1) 0).1 = true :=
  (claim_C8.2 4 (by norm_num) (by norm_num) 1 (fun _ => 1) 0).mpr (by decide)

/-- C5, counterexample: the claim says the key-generation retry loops are
bounded — there is an attempt ceiling within which the prime search always
returns (or fails deterministically; the code has no failure value at all).
False: for every ceiling `N`, on the constant-9 random stream every `z_gen 2`
candidate is 99 and every witness base is 9, each round rejects, and
`prime_gen` has still not returned after `N` attempts. -/
theorem claim_C5_counterexample :
    ¬ (∃ N : Nat, ∀ (s : Nat → Nat) (i : Nat), (prime_gen 50 2 s N i).isSome = true) := by
  rintro ⟨N, hN⟩
  have h9 := hN supply9 0
  rw [prime_gen_supply9_none N 0] at h9
  exact absurd h9 (by decide)

/-- C5, amended: the retry loops are unbounded and there is no
`KeyGenerationFailed` path: on the constant-9 stream the source `prime_gen`
loop never returns — in the fuelled model it yields `none` for every fuel
value and every starting position. -/
theorem claim_C5 : ∀ (fuel i : Nat), prime_gen 50 2 supply9 fuel i = none :=
  prime_gen_supply9_none

/-- C9: every key pair the source `private_key_gen` actually produces
satisfies the spec's KeyPair invariant: `n = p * q`, `gcd(e, (p-1)(q-1)) = 1`
(from the `e_gen` coprimality filter) and `e * d = 1 (mod (p-1)(q-1))` (from
`d_gen` being the modular inverse). -/
theorem claim_C9 (rc : rsa_config) (fuel : Nat) (s : Nat → Nat) (i : Nat)
    (K : private_key) (h : private_key_gen rc fuel s i = some K) :
    K.n = K.p * K.q ∧ Nat.gcd K.e (phiOf K) = 1 ∧
      K.e * K.d % phiOf K = 1 % phiOf K := by
  unfold private_key_gen at h
  cases hp : prime_gen 50 rc.p_len s fuel i with
  | none => rw [hp] at h; exact absurd h (by simp)
  | some pi =>
    rw [hp] at h
    dsimp only at h
    cases hq : prime_gen 50 rc.q_len s fuel pi.2 with
    | none => rw [hq] at h; exact absurd h (by simp)
    | some qi =>
      rw [hq] at h
      dsimp only at h
      cases he : e_gen rc.e_len ((pi.1 - 1) * (qi.1 - 1)) s fuel qi.2 with
      | none => rw [he] at h; exact absurd h (by simp)
      | some ei =>
        rw [he] at h
        dsimp only at h
        cases hd : d_gen ei.1 ((pi.1 - 1) * (qi.1 - 1)) with
        | none => rw [hd] at h; exact absurd h (by simp)
        | some d0 =>
          rw [hd] at h
          dsimp only at h
          have hK : (⟨pi.1 * qi.1, pi.1, qi.1, ei.1, d0⟩ : private_key) = K :=
            Option.some.inj h
          subst hK
          refine ⟨rfl, ?_, ?_⟩
          · exact e_gen_coprime rc.e_len _ s fuel qi.2 ei.1 ei.2 he
          · exact mod_minv_spec ei.1 _ d0 hd

/-- C9, witness: the concrete run on `supplyW` with unit-length configuration
produces the key `(n, p, q, e, d) = (6, 2, 3, 1, 1)`, and the invariant holds
for it. -/
theorem claim_C9_witness :
    (6 : Nat) = 2 * 3 ∧
    Nat.gcd 1 ((2 - 1) * (3 - 1)) = 1 ∧
    1 * 1 % ((2 - 1) * (3 - 1)) = 1 % ((2 - 1) * (3 - 1)) :=
  claim_C9 ⟨1, 1, 1⟩ 2 supplyW 0 ⟨6, 2, 3, 1, 1⟩ (by decide)

/-- C3, counterexample: the claim says `encode` fails with `PayloadTooLarge`
exactly when `30 + len(payload) > w*h*3` — i.e. that the code refines the
spec-side `insert_message_spec`. The source `insert_message` performs no
capacity check and has no failure path: on a 1x1 image (3 bytes) with a
1-bit payload the spec demands the error, while the code returns an output
image (silently dropping all bits beyond the capacity). -/
theorem claim_C3_counterexample :
    ¬ (∀ (w h : Nat) (img : List Nat) (bits : List Bool), img.length = w * h * 3 →
        insert_message_spec w h img bits = Except.ok (insert_messageBits img bits)) := by
  intro hcl
  have h2 := hcl 1 1 [0, 0, 0] [true] (by decide)
  rw [show insert_message_spec 1 1 [0, 0, 0] [true] =
      Except.error StegoError.PayloadTooLarge from by
    unfold insert_message_spec
    rw [if_pos (by decide)]] at h2
  exact Except.noConfusion h2

/-- C3, amended: the source `insert_message` never fails; it always returns
an image of the same size. At the exact boundary
`30 + len(payload) = w*h*3` every image byte carries the corresponding bit of
header ++ payload, as claimed; above the boundary there is no
`PayloadTooLarge` error — the loop simply ignores every bit beyond the image,
i.e. embedding a bitstream equals embedding its truncation to the image
length. -/
theorem claim_C3 (w h : Nat) (img : List Nat) (bits : List Bool)
    (hlen : img.length = w * h * 3) :
    (insert_messageBits img bits).length = img.length ∧
    (30 + bits.length = w * h * 3 →
      ∀ i, i < img.length →
        (insert_messageBits img bits).getD i 0 =
          overwrite_last_bit (img.getD i 0)
            ((toFixedBits 30 bits.length ++ bits).getD i false)) ∧
    (∀ full : List Bool, embedBits img full = embedBits img (full.take img.length)) := by
  refine ⟨embedBits_length img _, ?_, fun full => embedBits_take img full⟩
  intro hcap i hi
  have hfull : (toFixedBits 30 bits.length ++ bits).length = img.length := by
    simp only [List.length_append, toFixedBits, List.length_map, List.length_range]
    omega
  exact embedBits_getD_lt img _ i (by omega) (le_of_eq hfull)

/-- C3, witness for the amended theorem at the boundary: a 10x1 image
(30 bytes) with the empty payload, `30 + 0 = 10*1*3`. -/
theorem claim_C3_witness :
    (insert_messageBits (List.replicate 30 7) []).length = 30 := by
  have hc := claim_C3 10 1 (List.replicate 30 7) [] (by decide)
  simpa using hc.1

/-- C7: the source `insert_message` loop writes the bitstream bit-by-bit into
the least significant bit of successive image bytes (the buffer order is the
PPM row-major R,G,B byte order), the written byte differs from the original
by at most 1 in either direction, its parity equals the written bit, and
every byte at positions at or beyond the bitstream length is unchanged. -/
theorem claim_C7 (img : List Nat) (bits : List Bool) (hlen : bits.length ≤ img.length)
    (hbytes : ∀ b ∈ img, b < 256) :
    (embedBits img bits).length = img.length ∧
    (∀ i, i < bits.length →
      (embedBits img bits).getD i 0 = overwrite_last_bit (img.getD i 0) (bits.getD i false) ∧
      (embedBits img bits).getD i 0 % 2 = (if bits.getD i false then 1 else 0)) ∧
    (∀ i, bits.length ≤ i → (embedBits img bits).getD i 0 = img.getD i 0) ∧
    (∀ i, i < img.length →
      (embedBits img bits).getD i 0 ≤ img.getD i 0 + 1 ∧
      img.getD i 0 ≤ (embedBits img bits).getD i 0 + 1) := by
  refine ⟨embedBits_length img bits, ?_, fun i hi => embedBits_getD_ge img bits i hi, ?_⟩
  · intro i hi
    have hilt : i < img.length := by omega
    have heq := embedBits_getD_lt img bits i hi hlen
    have hb : img.getD i 0 < 256 := getD_lt_of_mem_bound img i hilt hbytes
    refine ⟨heq, ?_⟩
    rw [heq]
    exact (overwrite_facts _ hb _).1
  · intro i hi
    by_cases hib : i < bits.length
    · have heq := embedBits_getD_lt img bits i hib hlen
      have hb : img.getD i 0 < 256 := getD_lt_of_mem_bound img i hi hbytes
      rw [heq]
      exact ⟨(overwrite_facts _ hb _).2.1, (overwrite_facts _ hb _).2.2⟩
    · rw [embedBits_getD_ge img bits i (by omega)]
      omega

/-- C7, witness: embedding `[1, 0]` into the 3-byte image `[0, 255, 7]`
leaves the third byte untouched. -/
theorem claim_C7_witness : (embedBits [0, 255, 7] [true, false]).getD 2 0 = 7 :=
  (claim_C7 [0, 255, 7] [true, false] (by decide) (by decide)).2.2.1 2 (by decide)

/-- C6: for a modulus of at least 16 bits (so that the block size
`numbits n / 8 - 1` is at least one byte — for smaller moduli the source
recursion makes no progress and never terminates), the source block
encryption partitions the message into consecutive chunks of exactly
`blockSize n` bytes with the last chunk possibly shorter, encodes each chunk
as the big-endian base-256 integer, encrypts each block independently with
`m ^ e mod n`, and the output sequence is the chunk sequence in original
order. -/
theorem claim_C6 (pk : public_key) (msg : List Nat) (h : 16 ≤ numbits pk.n) :
    encrypt_message msg pk = (chunksOf (blockSize pk.n) msg).map
      (fun c => (plaintext_encrypt (plaintext_input_string c) pk).c) ∧
    (chunksOf (blockSize pk.n) msg).flatten = msg ∧
    (∀ c ∈ chunksOf (blockSize pk.n) msg, c ≠ [] ∧ c.length ≤ blockSize pk.n) ∧
    (∀ j, j + 1 < (chunksOf (blockSize pk.n) msg).length →
      ((chunksOf (blockSize pk.n) msg).getD j []).length = blockSize pk.n) ∧
    (∀ c : List Nat, encode_chars 0 c = bigEndianVal c) := by
  have hk := blockSize_pos pk.n h
  refine ⟨?_, chunksOf_flatten msg.length msg _ (le_refl _) hk,
    chunksOf_shape msg.length msg _ (le_refl _) hk,
    chunksOf_full_chunks msg.length msg _ (le_refl _) hk,
    fun c => by rw [encode_chars_acc]; simp⟩
  show encode_blocksAux pk (msg.length + 1) (blockSize pk.n) msg [] = _
  rw [encode_blocksAux_eq pk (msg.length + 1) (blockSize pk.n) msg [] (by omega) hk]
  simp

/-- C6, witness at `pk = (33667, 3)` (a 16-bit modulus, block size 1). -/
theorem claim_C6_witness :
    16 ≤ numbits 33667 ∧ (chunksOf (blockSize 33667) [5, 6, 7]).flatten = [5, 6, 7] :=
  ⟨by decide, (claim_C6 ⟨33667, 3⟩ [5, 6, 7] (by decide)).2.1⟩

/-- C1, counterexample: the round trip
`decryptMessage (encryptMessage P pub) K = P` cannot hold for every plaintext
byte sequence: the big-endian block encoding drops leading zero bytes, so the
distinct plaintexts `[0, 65]` and `[65]` produce the same ciphertext under the
valid key `K0` (block size 2), and no decryption can return both. -/
theorem claim_C1_counterexample :
    ¬ (∀ (P : List Nat) (K : private_key), ValidKeyPair K →
        decrypt_message (encrypt_message P (public_key_gen K)) K = P) := by
  intro h
  have h1 := h [0, 65] K0 validK0
  have h2 := h [65] K0 validK0
  have heq : encrypt_message [0, 65] (public_key_gen K0) =
      encrypt_message [65] (public_key_gen K0) := by decide
  rw [heq] at h1
  rw [h1] at h2
  exact absurd h2 (by decide)

/-- C1, amended: the round trip holds for every valid key pair with a modulus
of at least 16 bits and every plaintext byte sequence none of whose
`blockSize n`-byte chunks starts with a zero byte (the unrestricted claim is
false because the big-endian encoding drops leading zero bytes; see the
counterexample). Decryption is modelled from the spec as block-wise
`c ^ d mod n` followed by minimal big-endian byte decoding, since the
repository source contains no decryption code. -/
theorem claim_C1 (P : List Nat) (K : private_key) (hV : ValidKeyPair K)
    (hbits : 16 ≤ numbits K.n) (hbytes : ∀ b ∈ P, b < 256)
    (hchunks : ∀ c ∈ chunksOf (blockSize K.n) P, c.headD 0 ≠ 0) :
    decrypt_message (encrypt_message P (public_key_gen K)) K = P := by
  have hk := blockSize_pos K.n hbits
  have henc : encrypt_message P (public_key_gen K) =
      (chunksOf (blockSize K.n) P).map
        (fun c => powMod (encode_chars 0 c) K.e K.n) := by
    show encode_blocksAux (public_key_gen K) (P.length + 1)
      (blockSize (public_key_gen K).n) P [] = _
    rw [encode_blocksAux_eq (public_key_gen K) (P.length + 1)
      (blockSize (public_key_gen K).n) P [] (by omega) hk]
    simp [plaintext_encrypt, plaintext_input_string, public_key_gen]
  rw [henc]
  unfold decrypt_message
  rw [List.map_map]
  have hmap : ∀ c ∈ chunksOf (blockSize K.n) P,
      ((fun c => toBytes (plaintext_decrypt c K)) ∘
        fun c => powMod (encode_chars 0 c) K.e K.n) c = c := by
    intro c hc
    have hshape := chunksOf_shape P.length P _ (le_refl _) hk c hc
    have hcb : ∀ x ∈ c, x < 256 := by
      intro x hx
      refine hbytes x ?_
      rw [← chunksOf_flatten P.length P (blockSize K.n) (le_refl _) hk]
      exact List.mem_flatten.mpr ⟨c, hc, hx⟩
    have hlt : encode_chars 0 c < K.n := by
      calc encode_chars 0 c < 256 ^ c.length := encode_chars_lt c hcb
        _ ≤ 256 ^ blockSize K.n := Nat.pow_le_pow_right (by norm_num) hshape.2
        _ ≤ K.n := pow256_blockSize_le K.n hbits
    show toBytes (plaintext_decrypt (powMod (encode_chars 0 c) K.e K.n) K) = c
    unfold plaintext_decrypt
    rw [rsa_correct K hV (encode_chars 0 c) hlt]
    exact toBytes_encode_chars c hshape.1 (hchunks c hc) hcb
  rw [List.map_congr_left hmap, List.map_id']
  exact chunksOf_flatten P.length P _ (le_refl _) hk

/-- C1, witness for the amended theorem: the 2-byte plaintext `[1, 2]`
(a single chunk with nonzero leading byte) round-trips through the valid
24-bit key `K0`. -/
theorem claim_C1_witness :
    decrypt_message (encrypt_message [1, 2] (public_key_gen K0)) K0 = [1, 2] :=
  claim_C1 [1, 2] K0 validK0 (by decide) (by decide) (by decide)
